import Mathlib

/-!
# Verification of the thor transaction core (`src/tx/transaction.go`)

A shallow embedding of the transaction model: the body record, the RLP
codec it is serialized with, signing-hash / id / signer derivation (with the
keccak hash and the ECDSA recovery primitive as function parameters, since
they are external library code), proved-work arithmetic, intrinsic gas, and
the fee model.  Machine integers are `Nat` with explicit `% 2^64` where the
Go code can wrap; `big.Int` division by zero (a Go panic) is modelled by
`Option`.
-/

namespace Thor

/-- Fuel-indexed helper for `beBytes`; fuel `n` is enough for value `n`. -/
def beBytesGo : Nat → Nat → List Nat
  | 0, _ => []
  | f + 1, n => if n = 0 then [] else beBytesGo f (n / 256) ++ [n % 256]

/-- Minimal big-endian byte string of a natural number, empty for zero:
the encoding produced by `big.Int.Bytes` and by RLP integer encoding. -/
def beBytes (n : Nat) : List Nat :=
  beBytesGo n n

/-- Big-endian interpretation of a byte string as a natural number,
as `big.Int.SetBytes` does. -/
def beToNat (l : List Nat) : Nat :=
  l.foldl (fun a b => a * 256 + b) 0

/-- Fixed-width big-endian bytes of `n` (width `w`), truncating high bits,
as `binary.BigEndian.PutUint64` does for `w = 8`. -/
def beFixed : Nat → Nat → List Nat
  | 0, _ => []
  | w + 1, n => beFixed w (n / 256) ++ [n % 256]

/-- `hasPfx p l` holds when `l` starts with `p` (`bytes.HasPrefix l p`). -/
def hasPfx : List Nat → List Nat → Bool
  | [], _ => true
  | _ :: _, [] => false
  | a :: as, b :: bs => a == b && hasPfx as bs

/-- An RLP value: a byte string or a list of RLP values.  This is the generic
item tree go-ethereum's `rlp` package encodes and decodes. -/
inductive RlpItem where
  | str : List Nat → RlpItem
  | list : List RlpItem → RlpItem

/-- RLP length header: tag byte for payloads shorter than 56 bytes, otherwise
a length-of-length tag followed by the big-endian length. -/
def encodeLength (offset len : Nat) : List Nat :=
  if len < 56 then [offset + len]
  else (offset + 55 + (beBytes len).length) :: beBytes len

mutual

/-- RLP byte encoding of an item (go-ethereum `rlp.Encode`): a single byte
below `0x80` stands for itself, other strings get a `0x80`-based header,
lists get a `0xc0`-based header over the concatenated payload. -/
def rlpEncode : RlpItem → List Nat
  | .str [b] => if b < 0x80 then [b] else encodeLength 0x80 1 ++ [b]
  | .str s => encodeLength 0x80 s.length ++ s
  | .list items => encodeLength 0xc0 (encList items).length ++ encList items

/-- Concatenated RLP encodings of a sequence of items (a list payload). -/
def encList : List RlpItem → List Nat
  | [] => []
  | it :: its => rlpEncode it ++ encList its

end

mutual

/-- Well-formed item: all bytes below 256 and every length representable in
a `u64` (go-ethereum encodes lengths with at most 8 bytes). -/
def wfItem : RlpItem → Bool
  | .str s => s.all (· < 256) && decide (s.length < 2 ^ 64)
  | .list items => wfList items && decide ((encList items).length < 2 ^ 64)

/-- Well-formedness of every item of a sequence. -/
def wfList : List RlpItem → Bool
  | [] => true
  | it :: its => wfItem it && wfList its

end

mutual

/-- Fuel sufficient to parse an item from its encoding. -/
def itemSize : RlpItem → Nat
  | .str _ => 1
  | .list items => 1 + listSize items

/-- Fuel sufficient to parse a sequence of items from its payload. -/
def listSize : List RlpItem → Nat
  | [] => 1
  | it :: its => 1 + max (itemSize it) (listSize its)

end

/-- The first byte is below `0x80` (non-canonical single-byte string). -/
def hasLoByte (bs : List Nat) : Bool :=
  match bs with
  | [] => false
  | x :: _ => x < 0x80

/-- The first byte is zero (non-canonical big-endian length). -/
def leadZero (bs : List Nat) : Bool :=
  match bs with
  | [] => false
  | x :: _ => x == 0

mutual

/-- Fuel-indexed RLP parser for one item, returning the item and the unread
rest.  It enforces the canonicity rules go-ethereum's decoder enforces: a
single byte below `0x80` must be encoded as itself, a short form must be used
for payloads shorter than 56 bytes, and a long length has no leading zero. -/
def parseItem : Nat → List Nat → Option (RlpItem × List Nat)
  | 0, _ => none
  | _ + 1, [] => none
  | fuel + 1, b :: bs =>
    if b < 0x80 then some (.str [b], bs)
    else if b < 0xb8 then
      let n := b - 0x80
      if bs.length < n then none
      else if n = 1 && hasLoByte bs then none
      else some (.str (bs.take n), bs.drop n)
    else if b < 0xc0 then
      let ll := b - 0xb7
      if bs.length < ll then none
      else if leadZero bs then none
      else
        let n := beToNat (bs.take ll)
        if n < 56 then none
        else if (bs.drop ll).length < n then none
        else some (.str ((bs.drop ll).take n), (bs.drop ll).drop n)
    else if b < 0xf8 then
      let n := b - 0xc0
      if bs.length < n then none
      else
        match parseList fuel (bs.take n) with
        | none => none
        | some items => some (.list items, bs.drop n)
    else
      let ll := b - 0xf7
      if bs.length < ll then none
      else if leadZero bs then none
      else
        let n := beToNat (bs.take ll)
        if n < 56 then none
        else if (bs.drop ll).length < n then none
        else
          match parseList fuel ((bs.drop ll).take n) with
          | none => none
          | some items => some (.list items, (bs.drop ll).drop n)

/-- Fuel-indexed parser for a sequence of items filling the whole input. -/
def parseList : Nat → List Nat → Option (List RlpItem)
  | 0, _ => none
  | _ + 1, [] => some []
  | fuel + 1, bytes =>
    match parseItem fuel bytes with
    | none => none
    | some (it, rest) =>
      match parseList fuel rest with
      | none => none
      | some items => some (it :: items)

end

/-- Decode a whole byte string as one RLP item, with enough fuel for any
item whose encoding fills the input. -/
def rlpDecode (bs : List Nat) : Option RlpItem :=
  match parseItem (2 * bs.length + 2) bs with
  | some (it, []) => some it
  | _ => none

/-- Modelled from the spec: the `thor` package constants (`TxGas`,
`ClauseGas`, `ClauseGasContractCreation`, `MaxTxWorkDelay`) and the ethereum
`params` data-gas constants are not under `src/`; the spec names them
`TX_BASE_GAS`, `CLAUSE_GAS`, `CLAUSE_GAS_CREATE`, `MAX_WORK_DELAY`, `Z`,
`NZ` without fixing values, so they are carried as parameters. -/
structure ThorParams where
  txGas : Nat
  clauseGas : Nat
  clauseGasContractCreation : Nat
  txDataZeroGas : Nat
  txDataNonZeroGas : Nat
  maxTxWorkDelay : Nat

/-- Modelled from the spec: `clause.go` is not under `src/`; §3 of the spec
gives `Clause = { to: optional Address, value: u256, data: bytes }`, with
`to = none` denoting contract creation.  Addresses are 20-byte strings. -/
structure Clause where
  To : Option (List Nat)
  Value : Nat
  Data : List Nat

/-- Transaction body (`body` in `transaction.go`): chainTag, nonce, blockRef
(a `u64` holding the 8 BlockRef bytes big-endian), clauses, gasPriceCoef,
gas, optional 32-byte dependsOn, opaque reserved items, signature bytes. -/
structure TxBody where
  ChainTag : Nat
  Nonce : Nat
  BlockRef : Nat
  Clauses : List Clause
  GasPriceCoef : Nat
  Gas : Nat
  DependsOn : Option (List Nat)
  Reserved : List RlpItem
  Signature : List Nat

/-- An immutable transaction: the body.  The memoized derived values
(signing hash, id, signer, size) are modelled separately as explicit cache
state where a claim is about memoization. -/
structure Transaction where
  body : TxBody

/-- RLP item of an unsigned integer field: minimal big-endian string. -/
def uintItem (n : Nat) : RlpItem :=
  .str (beBytes n)

/-- RLP item of a nil-able fixed-width byte field (`rlp:"nil"` tag):
`none` encodes as the empty string. -/
def optBytesItem : Option (List Nat) → RlpItem
  | none => .str []
  | some bs => .str bs

/-- RLP item of a clause: the `[to, value, data]` list. -/
def clauseToItem (c : Clause) : RlpItem :=
  .list [optBytesItem c.To, uintItem c.Value, .str c.Data]

/-- RLP item of the 8 signed fields, in the order `SigningHash` hashes
them: chainTag, nonce, blockRef, clauses, gasPriceCoef, gas, dependsOn,
reserved (`transaction.go` lines 121-131). -/
def signingItem (b : TxBody) : RlpItem :=
  .list [uintItem b.ChainTag, uintItem b.Nonce, uintItem b.BlockRef,
    .list (b.Clauses.map clauseToItem), uintItem b.GasPriceCoef,
    uintItem b.Gas, optBytesItem b.DependsOn, .list b.Reserved]

/-- RLP item of the whole body, as `EncodeRLP` serializes it: the 8 signed
fields followed by the signature. -/
def bodyToItem (b : TxBody) : RlpItem :=
  .list [uintItem b.ChainTag, uintItem b.Nonce, uintItem b.BlockRef,
    .list (b.Clauses.map clauseToItem), uintItem b.GasPriceCoef,
    uintItem b.Gas, optBytesItem b.DependsOn, .list b.Reserved,
    .str b.Signature]

/-- Decode an unsigned integer of at most `w` bytes, rejecting a leading
zero byte (go-ethereum's canonical-integer rule) and oversize values. -/
def decodeUint (w : Nat) : RlpItem → Option Nat
  | .list _ => none
  | .str [] => some 0
  | .str (h :: rest) =>
    if h = 0 || w < rest.length + 1 then none else some (beToNat (h :: rest))

/-- Decode an arbitrary-size unsigned integer (`*big.Int` target),
rejecting a leading zero byte. -/
def decodeUintBig : RlpItem → Option Nat
  | .list _ => none
  | .str [] => some 0
  | .str (h :: rest) => if h = 0 then none else some (beToNat (h :: rest))

/-- Decode a nil-able fixed-width byte field (`rlp:"nil"`): the empty
string is `none`, otherwise exactly `w` bytes are required. -/
def decodeOptBytes (w : Nat) : RlpItem → Option (Option (List Nat))
  | .list _ => none
  | .str [] => some none
  | .str (h :: rest) =>
    if (h :: rest).length = w then some (some (h :: rest)) else none

/-- Decode a plain byte-string field. -/
def decodeBytes : RlpItem → Option (List Nat)
  | .str s => some s
  | .list _ => none

/-- Decode one clause from its `[to, value, data]` item. -/
def decodeClause : RlpItem → Option Clause
  | .list [toI, valI, dataI] =>
    match decodeOptBytes 20 toI, decodeUintBig valI, decodeBytes dataI with
    | some tv, some v, some d => some ⟨tv, v, d⟩
    | _, _, _ => none
  | _ => none

/-- Decode a sequence of clauses. -/
def decodeClauses : RlpItem → Option (List Clause)
  | .list items => items.mapM decodeClause
  | .str _ => none

/-- Decode the reserved field: a list of opaque items, kept verbatim. -/
def decodeReserved : RlpItem → Option (List RlpItem)
  | .list items => some items
  | .str _ => none

/-- Decode a transaction body from its 9-field list item, mirroring how
`DecodeRLP` maps the RLP list onto the `body` struct. -/
def decodeBodyItem : RlpItem → Option TxBody
  | .list [ctI, nI, brI, clI, gpcI, gI, depI, resI, sigI] =>
    match decodeUint 1 ctI, decodeUint 8 nI, decodeUint 8 brI,
        decodeClauses clI, decodeUint 1 gpcI, decodeUint 8 gI,
        decodeOptBytes 32 depI, decodeReserved resI, decodeBytes sigI with
    | some ct, some n, some br, some cls, some gpc, some g, some dep,
        some res, some sig =>
      some ⟨ct, n, br, cls, gpc, g, dep, res, sig⟩
    | _, _, _, _, _, _, _, _, _ => none
  | _ => none

/-- `EncodeRLP`: the canonical byte encoding of a transaction body. -/
def encodeTx (b : TxBody) : List Nat :=
  rlpEncode (bodyToItem b)

/-- `DecodeRLP`: parse the bytes as one RLP item and map it onto a body. -/
def decodeTx (bs : List Nat) : Option TxBody :=
  (rlpDecode bs).bind decodeBodyItem

/-- A keccak-class hash: 32-byte digest of a byte string.  External
library code (`sha3.NewKeccak256`), carried as a function parameter. -/
def HashFn : Type := List Nat → List Nat

/-- ECDSA signer recovery from a signing hash and a signature
(`crypto.SigToPub` composed with `PubkeyToAddress`); external library code,
carried as a function parameter.  `none` models a recovery error. -/
def RecoverFn : Type := List Nat → List Nat → Option (List Nat)

/-- `SigningHash`: keccak of the RLP encoding of the 8 signed fields;
the signature is excluded (`transaction.go` lines 115-134). -/
def Transaction.SigningHash (K : HashFn) (t : Transaction) : List Nat :=
  K (rlpEncode (signingItem t.body))

/-- `Signer` (its pure value): recover the address from the signing hash
and the signature bytes.  The per-transaction memo and the global LRU cache
only memoize this value; they never change it. -/
def Transaction.SignerPure (K : HashFn) (recover : RecoverFn)
    (t : Transaction) : Option (List Nat) :=
  recover (t.SigningHash K) t.body.Signature

/-- `makeID`: keccak of signing hash followed by the signer address
(`transaction.go` lines 86-92). -/
def Transaction.makeID (K : HashFn) (t : Transaction)
    (signer : List Nat) : List Nat :=
  K (t.SigningHash K ++ signer)

/-- `invalidTxID = thor.BytesToBytes32(math.MaxBig256.Bytes())`: the 32
bytes of `2^256 - 1`, i.e. 32 `0xff` bytes. -/
def invalidTxID : List Nat :=
  List.replicate 32 255

/-- `ID` (its pure value): the id when the cache is cold — `invalidTxID`
when signer recovery fails, `makeID signer` otherwise. -/
def Transaction.IDpure (K : HashFn) (recover : RecoverFn)
    (t : Transaction) : List Nat :=
  match t.SignerPure K recover with
  | none => invalidTxID
  | some s => t.makeID K s

/-- `ID` with its memoization made explicit: takes the id cache and
returns the id together with the cache afterwards.  A cached value is
returned as is; otherwise the result — sentinel included, because the
deferred `t.cache.id.Store(id)` on line 77 runs on every path — is stored. -/
def Transaction.IDstep (K : HashFn) (recover : RecoverFn)
    (t : Transaction) (cache : Option (List Nat)) :
    List Nat × Option (List Nat) :=
  match cache with
  | some v => (v, some v)
  | none =>
    match t.SignerPure K recover with
    | none => (invalidTxID, some invalidTxID)
    | some s => (t.makeID K s, some (t.makeID K s))

/-- `idToWork`: `MaxBig256 / SetBytes(id)` (`transaction.go` lines 94-97).
`big.Int.Div` panics when the divisor is zero, modelled as `none`. -/
def idToWork (id : List Nat) : Option Nat :=
  if beToNat id = 0 then none else some ((2 ^ 256 - 1) / beToNat id)

/-- `ProvedWork`: zero when signer recovery fails, otherwise the work of
the id (`transaction.go` lines 101-107). -/
def Transaction.ProvedWork (K : HashFn) (recover : RecoverFn)
    (t : Transaction) : Option Nat :=
  match t.SignerPure K recover with
  | none => some 0
  | some _ => idToWork (t.IDpure K recover)

/-- `EvaluateWork`: the work of the id the transaction would have if
`signer` had signed it (`transaction.go` lines 110-112). -/
def Transaction.EvaluateWork (K : HashFn) (t : Transaction)
    (signer : List Nat) : Option Nat :=
  idToWork (t.makeID K signer)

/-- `WithSignature`: a new transaction whose body copies the receiver's
body with the signature replaced (`transaction.go` lines 199-206). -/
def Transaction.WithSignature (t : Transaction) (sig : List Nat) :
    Transaction :=
  { body := { t.body with Signature := sig } }

/-- Gas-accounting error: `evm.ErrOutOfGas`. -/
inductive GasErr where
  | outOfGas
deriving DecidableEq

/-- `math.SafeAdd` on `u64`: the wrapped sum and the overflow flag. -/
def safeAdd (x y : Nat) : Nat × Bool :=
  ((x + y) % 2 ^ 64, decide (2 ^ 64 ≤ x + y))

/-- `math.SafeMul` on `u64`: the wrapped product and the overflow flag. -/
def safeMul (x y : Nat) : Nat × Bool :=
  (x * y % 2 ^ 64, decide (2 ^ 64 ≤ x * y))

/-- `dataGas`: zero-byte and non-zero-byte costs with overflow checks
(`transaction.go` lines 361-387). -/
def dataGas (P : ThorParams) (data : List Nat) : Except GasErr Nat :=
  if data.length = 0 then .ok 0
  else
    let z := data.count 0
    let nz := data.length - z
    let zg := safeMul P.txDataZeroGas z
    if zg.2 then .error .outOfGas
    else
      let nzg := safeMul P.txDataNonZeroGas nz
      if nzg.2 then .error .outOfGas
      else
        let g := safeAdd zg.1 nzg.1
        if g.2 then .error .outOfGas else .ok g.1

/-- The per-clause fixed cost: contract creation when `To = none`
(`transaction.go` lines 260-266). -/
def clauseFixedGas (P : ThorParams) (c : Clause) : Nat :=
  match c.To with
  | none => P.clauseGasContractCreation
  | some _ => P.clauseGas

/-- The clause loop of `IntrinsicGas`: fold the clauses over the running
total with overflow-checked additions. -/
def intrinsicLoop (P : ThorParams) : List Clause → Nat → Except GasErr Nat
  | [], total => .ok total
  | c :: cs, total =>
    match dataGas P c.Data with
    | .error e => .error e
    | .ok gas =>
      let t1 := safeAdd total gas
      if t1.2 then .error .outOfGas
      else
        let t2 := safeAdd t1.1 (clauseFixedGas P c)
        if t2.2 then .error .outOfGas else intrinsicLoop P cs t2.1

/-- `IntrinsicGas` (`transaction.go` lines 243-274). -/
def Transaction.IntrinsicGas (P : ThorParams) (t : Transaction) :
    Except GasErr Nat :=
  if t.body.Clauses.length = 0 then .ok (P.txGas + P.clauseGas)
  else intrinsicLoop P t.body.Clauses P.txGas

/-- `GasPrice`: `coef * baseGasPrice / 255 + baseGasPrice`, with
`big.Int.Div` (Euclidean division, `Int.ediv`) — `transaction.go` lines
278-283. -/
def Transaction.GasPrice (t : Transaction) (baseGasPrice : Int) : Int :=
  Int.ediv ((t.body.GasPriceCoef : Int) * baseGasPrice) 255 + baseGasPrice

/-- The `u32` infinite-delay sentinel `math.MaxUint32`. -/
def maxUInt32 : Nat := 2 ^ 32 - 1

/-- `BlockRef()`: the 8 big-endian bytes of the `u64` blockRef field. -/
def Transaction.blockRefBytes (t : Transaction) : List Nat :=
  beFixed 8 t.body.BlockRef

/-- Modelled from the spec: `BlockRef.Number()` lives in `blockref.go`,
not under `src/`; §3 of the spec says the first 4 bytes are the block
number, big-endian. -/
def blockRefNumber (br : List Nat) : Nat :=
  beToNat (br.take 4)

/-- `measureDelay` (`transaction.go` lines 306-322): infinite when the
reference is not strictly older than the head, when the gap exceeds
`MaxTxWorkDelay`, or when the looked-up block id does not start with the
blockRef bytes; otherwise the exact gap. -/
def Transaction.measureDelay (P : ThorParams) (t : Transaction)
    (headBlockNum : Nat) (getBlockID : Nat → List Nat) : Nat :=
  let ref := t.blockRefBytes
  let refNum := blockRefNumber ref
  if headBlockNum ≤ refNum then maxUInt32
  else if P.maxTxWorkDelay < headBlockNum - refNum then maxUInt32
  else if hasPfx ref (getBlockID refNum) then headBlockNum - refNum
  else maxUInt32

/-- `OverallGasPrice` (`transaction.go` lines 287-303): the plain gas
price when the delay exceeds `MaxTxWorkDelay`; otherwise the work-derived
gas, capped at the declared gas, buys a discount
`wgas * baseGasPrice / gas`.  The two `big.Int` division-by-zero panics —
`idToWork` inside `ProvedWork` on a zero id, and the division by a zero
declared gas — are modelled as `none`.  `workToGas` is not under `src/`
and is carried as a function parameter. -/
def Transaction.OverallGasPrice (P : ThorParams)
    (workToGas : Nat → Nat → Nat) (K : HashFn) (recover : RecoverFn)
    (t : Transaction) (baseGasPrice : Int) (headBlockNum : Nat)
    (getBlockID : Nat → List Nat) : Option Int :=
  let gasPrice := t.GasPrice baseGasPrice
  if P.maxTxWorkDelay < t.measureDelay P headBlockNum getBlockID then
    some gasPrice
  else
    match t.ProvedWork K recover with
    | none => none
    | some work =>
      let wgas := min (workToGas work headBlockNum) t.body.Gas
      if t.body.Gas = 0 then none
      else
        some (Int.ediv ((wgas : Int) * baseGasPrice) (t.body.Gas : Int)
          + gasPrice)

/-- A clause the codec can round-trip: a present target address is exactly
20 bytes (the decoder demands the declared width back). -/
def validClause (c : Clause) : Bool :=
  match c.To with
  | none => true
  | some a => a.length == 20

/-- A body the codec can round-trip: numeric fields within their declared
widths, a present dependsOn of exactly 32 bytes, clause targets of exactly
20 bytes, and a well-formed encoded item tree. -/
def validBody (b : TxBody) : Bool :=
  decide (b.ChainTag < 256) && decide (b.Nonce < 2 ^ 64) &&
    decide (b.BlockRef < 2 ^ 64) && decide (b.GasPriceCoef < 256) &&
    decide (b.Gas < 2 ^ 64) && b.Clauses.all validClause &&
    (match b.DependsOn with
     | none => true
     | some h => h.length == 32) &&
    wfItem (bodyToItem b)

/-- The exact (unbounded) data gas of a byte string: `Z` per zero byte and
`NZ` per non-zero byte.  Used to state that `IntrinsicGas` never returns a
wrapped value. -/
def exactDataGas (P : ThorParams) (d : List Nat) : Nat :=
  P.txDataZeroGas * d.count 0 + P.txDataNonZeroGas * (d.length - d.count 0)

/-- The exact (unbounded) intrinsic gas of a transaction. -/
def exactIntrinsicGas (P : ThorParams) (t : Transaction) : Nat :=
  if t.body.Clauses.length = 0 then P.txGas + P.clauseGas
  else P.txGas +
    (t.body.Clauses.map (fun c => exactDataGas P c.Data + clauseFixedGas P c)).sum

/-- A degenerate keccak instantiation: every input hashes to the all-zero
digest.  Exercises the zero-id division. -/
def hashZero : HashFn :=
  fun _ => List.replicate 32 0

/-- A keccak instantiation whose digests are never zero as integers. -/
def hashOne : HashFn :=
  fun _ => List.replicate 31 0 ++ [1]

/-- A recovery instantiation that always fails (unsigned or garbled
signature). -/
def recFail : RecoverFn :=
  fun _ _ => none

/-- A recovery instantiation that always succeeds with a fixed address. -/
def recOk : RecoverFn :=
  fun _ _ => some (List.replicate 20 1)

/-- A small concrete transaction used to instantiate theorems: one
creation clause, one call clause, a reserved entry, no dependsOn. -/
def tx0 : Transaction :=
  ⟨⟨74, 7, (1 <<< 32) + 0xabcd, [⟨none, 5, [0, 1, 0]⟩,
    ⟨some (List.replicate 20 3), 0, []⟩], 128, 21000, none,
    [.str [1, 2]], [9, 9]⟩⟩

/-- Concrete protocol constants used to instantiate theorems. -/
def params0 : ThorParams :=
  ⟨5000, 16000, 48000, 4, 68, 30⟩

end Thor

namespace Thor

/-! ## Basic lemmas about byte strings and RLP -/

theorem beBytesGo_congr : ∀ f g n : Nat, n ≤ f → n ≤ g →
    beBytesGo f n = beBytesGo g n := by
  intro f
  induction f with
  | zero =>
    intro g n hf _
    interval_cases n
    cases g <;> simp [beBytesGo]
  | succ m ih =>
    intro g n hf hg
    by_cases h0 : n = 0
    · subst h0
      cases g <;> simp [beBytesGo]
    · obtain ⟨g', rfl⟩ : ∃ g', g = g' + 1 :=
        ⟨g - 1, by omega⟩
      have hdiv : n / 256 < n := Nat.div_lt_self (by omega) (by norm_num)
      simp only [beBytesGo, h0, if_false]
      rw [ih g' (n / 256) (by omega) (by omega)]

/-- Recursive unfolding of `beBytes`. -/
theorem beBytes_eq (n : Nat) :
    beBytes n = if n = 0 then [] else beBytes (n / 256) ++ [n % 256] := by
  by_cases h0 : n = 0
  · subst h0; simp [beBytes, beBytesGo]
  · obtain ⟨m, rfl⟩ : ∃ m, n = m + 1 := ⟨n - 1, by omega⟩
    have hdiv : (m + 1) / 256 < m + 1 := Nat.div_lt_self (by omega) (by norm_num)
    show beBytesGo (m + 1) (m + 1) = _
    rw [show beBytesGo (m + 1) (m + 1)
        = beBytesGo m ((m + 1) / 256) ++ [(m + 1) % 256] by
      simp [beBytesGo, h0]]
    rw [beBytesGo_congr m ((m + 1) / 256) ((m + 1) / 256) (by omega) le_rfl]
    simp [beBytes, h0]

/-! ## C1: id memoization on signer failure -/

/-- C1 counterexample: on a transaction whose signer recovery fails, the
first `ID()` call does store the invalid-id sentinel in the id cache —
the deferred `t.cache.id.Store(id)` runs on the error path too — refuting
the claim that the sentinel is never cached. -/
theorem id_sentinel_cached_cex :
    Transaction.SignerPure hashZero recFail tx0 = none ∧
    (Transaction.IDstep hashZero recFail tx0 none).2 = some invalidTxID :=
  ⟨rfl, rfl⟩

/-- C1 amended: if `signer()` fails, `id()` returns the invalid-id
sentinel, and the id — the sentinel included — is memoized
unconditionally, so a subsequent call returns the cached sentinel without
recomputation; on success the computed id is likewise memoized. -/
theorem id_memoized_unconditionally (K : HashFn) (recover : RecoverFn)
    (t : Transaction) :
    (t.SignerPure K recover = none →
       t.IDstep K recover none = (invalidTxID, some invalidTxID) ∧
       t.IDstep K recover (some invalidTxID)
         = (invalidTxID, some invalidTxID)) ∧
    (∀ s, t.SignerPure K recover = some s →
       t.IDstep K recover none = (t.makeID K s, some (t.makeID K s))) := by
  constructor
  · intro h
    exact ⟨by simp [Transaction.IDstep, h], rfl⟩
  · intro s hs
    simp [Transaction.IDstep, hs]

/-- C1 amended, witnessed on a concrete unsigned transaction. -/
theorem id_memoized_unconditionally_witness :
    Transaction.IDstep hashZero recFail
      ⟨⟨74, 7, 1 <<< 32, [], 128, 21000, none, [], []⟩⟩ none
      = (invalidTxID, some invalidTxID) :=
  ((id_memoized_unconditionally hashZero recFail
    ⟨⟨74, 7, 1 <<< 32, [], 128, 21000, none, [], []⟩⟩).1 rfl).1

/-! ## C4: measureDelay -/

/-- C4: `measureDelay` returns the infinite-delay sentinel when
`refNum >= head`, when the gap exceeds `MaxTxWorkDelay`, or when the
looked-up block id does not start with the blockRef bytes; otherwise it
returns exactly `head - refNum`. -/
theorem measureDelay_spec (P : ThorParams) (t : Transaction) (head : Nat)
    (getBlockID : Nat → List Nat) :
    (head ≤ blockRefNumber t.blockRefBytes →
       t.measureDelay P head getBlockID = maxUInt32) ∧
    (blockRefNumber t.blockRefBytes < head →
       P.maxTxWorkDelay < head - blockRefNumber t.blockRefBytes →
       t.measureDelay P head getBlockID = maxUInt32) ∧
    (blockRefNumber t.blockRefBytes < head →
       head - blockRefNumber t.blockRefBytes ≤ P.maxTxWorkDelay →
       hasPfx t.blockRefBytes (getBlockID (blockRefNumber t.blockRefBytes))
         = false →
       t.measureDelay P head getBlockID = maxUInt32) ∧
    (blockRefNumber t.blockRefBytes < head →
       head - blockRefNumber t.blockRefBytes ≤ P.maxTxWorkDelay →
       hasPfx t.blockRefBytes (getBlockID (blockRefNumber t.blockRefBytes))
         = true →
       t.measureDelay P head getBlockID
         = head - blockRefNumber t.blockRefBytes) := by
  refine ⟨fun h1 => ?_, fun h1 h2 => ?_, fun h1 h2 h3 => ?_,
    fun h1 h2 h3 => ?_⟩
  · simp [Transaction.measureDelay, h1]
  · simp [Transaction.measureDelay, Nat.not_le.mpr h1, h2]
  · simp [Transaction.measureDelay, Nat.not_le.mpr h1, Nat.not_lt.mpr h2, h3]
  · simp [Transaction.measureDelay, Nat.not_le.mpr h1, Nat.not_lt.mpr h2, h3]

/-- C4, witnessed: a reference 4 blocks behind the head with a matching
id prefix measures a delay of exactly 4. -/
theorem measureDelay_spec_witness :
    Transaction.measureDelay params0 tx0 5
      (fun _ => Transaction.blockRefBytes tx0 ++ List.replicate 24 7) = 4 :=
  (measureDelay_spec params0 tx0 5
    (fun _ => Transaction.blockRefBytes tx0 ++ List.replicate 24 7)).2.2.2
    (by decide) (by decide) (by decide)

/-! ## C5: GasPrice -/

/-- C5: for every non-negative base gas price,
`GasPrice(base) = base + base * gasPriceCoef / 255` with truncating
integer division (stated over `Nat`, whose division truncates). -/
theorem gasPrice_spec (t : Transaction) (base : Nat) :
    t.GasPrice (base : Int) =
      ((base + base * t.body.GasPriceCoef / 255 : Nat) : Int) := by
  unfold Transaction.GasPrice
  rw [show ((t.body.GasPriceCoef : Int) * (base : Int))
      = ((t.body.GasPriceCoef * base : Nat) : Int) by push_cast; ring]
  rw [show ((255 : Int)) = ((255 : Nat) : Int) by norm_num]
  rw [← Int.natCast_ediv]
  norm_cast
  rw [Nat.mul_comm]
  exact Nat.add_comm _ _

/-! ## C7: WithSignature frame -/

/-- C7: `WithSignature` returns a transaction whose body is the original
body with the signature replaced by the given bytes; the signing hash of
the new transaction equals the original's, and is independent of the
signature content altogether. -/
theorem withSignature_spec (K : HashFn) (t : Transaction) (sig : List Nat) :
    (t.WithSignature sig).body = { t.body with Signature := sig } ∧
    (t.WithSignature sig).body.Signature = sig ∧
    (t.WithSignature sig).SigningHash K = t.SigningHash K ∧
    ∀ sig', (t.WithSignature sig).SigningHash K
      = (t.WithSignature sig').SigningHash K :=
  ⟨rfl, rfl, rfl, fun _ => rfl⟩

/-! ## C8: ProvedWork and EvaluateWork -/

/-- C8: `ProvedWork` is zero when signer recovery fails; when recovery
yields `s`, it equals the work of the id, equals `EvaluateWork s`, and —
when the id is non-zero as an integer — equals `MAX_256 / id`. -/
theorem provedWork_spec (K : HashFn) (recover : RecoverFn)
    (t : Transaction) :
    (t.SignerPure K recover = none →
       t.ProvedWork K recover = some 0) ∧
    (∀ s, t.SignerPure K recover = some s →
       t.ProvedWork K recover = idToWork (t.IDpure K recover) ∧
       t.ProvedWork K recover = t.EvaluateWork K s ∧
       (beToNat (t.IDpure K recover) ≠ 0 →
          t.ProvedWork K recover
            = some ((2 ^ 256 - 1) / beToNat (t.IDpure K recover)))) := by
  constructor
  · intro h
    simp [Transaction.ProvedWork, h]
  · intro s hs
    refine ⟨by simp [Transaction.ProvedWork, hs], ?_, ?_⟩
    · simp [Transaction.ProvedWork, Transaction.EvaluateWork,
        Transaction.IDpure, hs]
    · intro hid
      simp only [Transaction.ProvedWork, hs]
      simp only [idToWork]
      rw [if_neg hid]

/-- C8, witnessed: with an everywhere-successful recovery and a non-zero
digest, `ProvedWork` coincides with `EvaluateWork` at the recovered
address. -/
theorem provedWork_spec_witness :
    Transaction.ProvedWork hashOne recOk tx0
      = Transaction.EvaluateWork hashOne tx0 (List.replicate 20 1) :=
  ((provedWork_spec hashOne recOk tx0).2 (List.replicate 20 1) rfl).2.1

/-! ## C9: OverallGasPrice with zero declared gas -/

/-- C9: when the declared gas is zero and the measured delay does not
exceed `MaxTxWorkDelay`, `OverallGasPrice` reaches a `big.Int` division
by zero (a panic, modelled as `none`): it is well-defined only when the
gas is positive or the delay exceeds the bound. -/
theorem overallGasPrice_gasZero (P : ThorParams)
    (workToGas : Nat → Nat → Nat) (K : HashFn) (recover : RecoverFn)
    (t : Transaction) (bgp : Int) (head : Nat)
    (getBlockID : Nat → List Nat)
    (hgas : t.body.Gas = 0)
    (hdelay : t.measureDelay P head getBlockID ≤ P.maxTxWorkDelay) :
    t.OverallGasPrice P workToGas K recover bgp head getBlockID = none := by
  have hnot : ¬ P.maxTxWorkDelay < t.measureDelay P head getBlockID :=
    Nat.not_lt.mpr hdelay
  simp only [Transaction.OverallGasPrice, hnot, if_false]
  cases h : t.ProvedWork K recover <;> simp [hgas]

/-- C9, witnessed: a zero-gas transaction four blocks behind the head is
priced `none` (the code would panic). -/
theorem overallGasPrice_gasZero_witness :
    Transaction.OverallGasPrice params0 (fun _ _ => 0) hashZero recFail
      ⟨⟨74, 7, 1 <<< 32, [], 128, 0, none, [], []⟩⟩ 100 5
      (fun _ => Transaction.blockRefBytes
        ⟨⟨74, 7, 1 <<< 32, [], 128, 0, none, [], []⟩⟩ ++
        List.replicate 24 7) = none :=
  overallGasPrice_gasZero params0 (fun _ _ => 0) hashZero recFail
    ⟨⟨74, 7, 1 <<< 32, [], 128, 0, none, [], []⟩⟩ 100 5
    (fun _ => Transaction.blockRefBytes
      ⟨⟨74, 7, 1 <<< 32, [], 128, 0, none, [], []⟩⟩ ++
      List.replicate 24 7) rfl (by decide)

/-! ## C10: work from a zero id -/

/-- C10: `idToWork` divides `MAX_256` by the id with no zero check: the
all-zero id is a division by zero (`none`, a panic in the code), any
non-zero id yields a value, and the panic propagates to `EvaluateWork`
and to `ProvedWork` of a signed transaction whose id hashes to zero. -/
theorem idToWork_zero_spec :
    idToWork (List.replicate 32 0) = none ∧
    (∀ id, beToNat id ≠ 0 → ∃ v, idToWork id = some v) ∧
    (∀ (t : Transaction) (s : List Nat),
       t.EvaluateWork hashZero s = none) ∧
    (∀ t : Transaction, t.ProvedWork hashZero recOk = none) := by
  refine ⟨by decide, fun id h => ⟨(2 ^ 256 - 1) / beToNat id, ?_⟩,
    fun t s => ?_, fun t => ?_⟩
  · simp [idToWork, h]
  · show idToWork (List.replicate 32 0) = none
    decide
  · show idToWork (List.replicate 32 0) = none
    decide

/-- C10, witnessed: the one-byte id `[1]` has a defined work value. -/
theorem idToWork_zero_spec_witness :
    ∃ v, idToWork [1] = some v :=
  idToWork_zero_spec.2.1 [1] (by decide)

/-! ## C3: OverallGasPrice -/

/-- C3: when the measured delay exceeds `MaxTxWorkDelay`,
`OverallGasPrice` is the plain gas price; otherwise it adds
`(workGas * baseGasPrice) / gas` where `workGas` is the work-derived gas
capped at the declared gas; in particular an unsigned transaction
(`ProvedWork = 0`, with work gas vanishing at zero work) gets a discount
of exactly zero. -/
theorem overallGasPrice_spec (P : ThorParams)
    (workToGas : Nat → Nat → Nat) (K : HashFn) (recover : RecoverFn)
    (t : Transaction) (bgp : Int) (head : Nat)
    (getBlockID : Nat → List Nat) :
    (P.maxTxWorkDelay < t.measureDelay P head getBlockID →
       t.OverallGasPrice P workToGas K recover bgp head getBlockID
         = some (t.GasPrice bgp)) ∧
    (t.measureDelay P head getBlockID ≤ P.maxTxWorkDelay →
       ∀ w, t.ProvedWork K recover = some w → t.body.Gas ≠ 0 →
       t.OverallGasPrice P workToGas K recover bgp head getBlockID
         = some (Int.ediv
             (((min (workToGas w head) t.body.Gas : Nat) : Int) * bgp)
             ((t.body.Gas : Nat) : Int) + t.GasPrice bgp)) ∧
    (t.measureDelay P head getBlockID ≤ P.maxTxWorkDelay →
       t.SignerPure K recover = none → workToGas 0 head = 0 →
       t.body.Gas ≠ 0 →
       t.OverallGasPrice P workToGas K recover bgp head getBlockID
         = some (t.GasPrice bgp)) := by
  refine ⟨fun h => ?_, fun hd w hw hg => ?_, fun hd hs hw0 hg => ?_⟩
  · simp [Transaction.OverallGasPrice, h]
  · simp [Transaction.OverallGasPrice, Nat.not_lt.mpr hd, hw, hg]
  · have hw : t.ProvedWork K recover = some 0 := by
      simp [Transaction.ProvedWork, hs]
    simp only [Transaction.OverallGasPrice, Nat.not_lt.mpr hd, if_false,
      hw, hg, hw0, Nat.zero_min, Nat.cast_zero, zero_mul, min_self,
      Nat.min_self, Nat.min_zero, Option.some.injEq]
    rw [show Int.ediv 0 ((t.body.Gas : Nat) : Int) = 0 from
      Int.zero_ediv _, Int.zero_add]

/-- C3, witnessed: a signed transaction four blocks behind the head, with
enough proved work to hit the declared-gas cap, is priced
`gasPrice + gas * base / gas = gasPrice + base`. -/
theorem overallGasPrice_spec_witness :
    Transaction.OverallGasPrice params0 (fun w _ => w) hashOne recOk tx0 100
      5 (fun _ => Transaction.blockRefBytes tx0 ++ List.replicate 24 7)
      = some 250 := by
  have h := (overallGasPrice_spec params0 (fun w _ => w) hashOne recOk tx0
    100 5
    (fun _ => Transaction.blockRefBytes tx0 ++ List.replicate 24 7)).2.1
    (by decide) (2 ^ 256 - 1) (by decide) (by decide)
  rw [h]
  decide

/-! ## C2: IntrinsicGas -/

theorem dataGas_ok_val (P : ThorParams) (d : List Nat) (g : Nat)
    (h : dataGas P d = .ok g) : g = exactDataGas P d := by
  by_cases hd : d.length = 0
  · rw [List.length_eq_zero] at hd
    subst hd
    simp [dataGas] at h
    simp [exactDataGas, ← h]
  · simp only [dataGas, hd, if_false, safeMul, safeAdd,
      decide_eq_true_eq] at h
    set a := P.txDataZeroGas * d.count 0 with ha
    set b := P.txDataNonZeroGas * (d.length - d.count 0) with hb
    split_ifs at h with h1 h2 h3 <;> try exact Except.noConfusion h
    · have ha256 : a < 2 ^ 64 := by omega
      have hb256 : b < 2 ^ 64 := by omega
      rw [Nat.mod_eq_of_lt ha256, Nat.mod_eq_of_lt hb256] at h3
      rw [Nat.mod_eq_of_lt ha256, Nat.mod_eq_of_lt hb256,
        Nat.mod_eq_of_lt (by omega : a + b < 2 ^ 64)] at h
      simp only [Except.ok.injEq] at h
      simp only [exactDataGas, ← ha, ← hb]
      omega

theorem dataGas_ok_of_lt (P : ThorParams) (d : List Nat)
    (h : exactDataGas P d < 2 ^ 64) :
    dataGas P d = .ok (exactDataGas P d) := by
  by_cases hd : d.length = 0
  · rw [List.length_eq_zero] at hd
    subst hd
    simp [dataGas, exactDataGas]
  · have hz : P.txDataZeroGas * d.count 0 ≤ exactDataGas P d := by
      simp [exactDataGas]
    have hnz : P.txDataNonZeroGas * (d.length - d.count 0)
        ≤ exactDataGas P d := by
      simp [exactDataGas]
    simp only [dataGas, hd, if_false, safeMul, safeAdd,
      decide_eq_true_eq]
    rw [if_neg (by omega), if_neg (by omega)]
    rw [Nat.mod_eq_of_lt (by omega), Nat.mod_eq_of_lt (by omega)]
    rw [if_neg (by simp [exactDataGas] at h ⊢; omega)]
    rw [Nat.mod_eq_of_lt (by simp [exactDataGas] at h ⊢; omega)]
    simp [exactDataGas]

theorem intrinsicLoop_ok_val (P : ThorParams) (cs : List Clause) :
    ∀ total v, intrinsicLoop P cs total = .ok v →
      v = total +
        (cs.map (fun c => exactDataGas P c.Data + clauseFixedGas P c)).sum ∧
      (cs ≠ [] → v < 2 ^ 64) := by
  induction cs with
  | nil =>
    intro total v h
    simp only [intrinsicLoop, Except.ok.injEq] at h
    simp [← h]
  | cons c cs ih =>
    intro total v h
    simp only [intrinsicLoop] at h
    cases hdg : dataGas P c.Data with
    | error e => rw [hdg] at h; exact absurd h (by simp)
    | ok gas =>
      rw [hdg] at h
      simp only [safeAdd, decide_eq_true_eq] at h
      split_ifs at h with h1 h2 <;> try exact Except.noConfusion h
      · have e1 : (total + gas) % 2 ^ 64 = total + gas :=
          Nat.mod_eq_of_lt (by omega)
        rw [e1] at h2
        rw [e1, Nat.mod_eq_of_lt
          (by omega : total + gas + clauseFixedGas P c < 2 ^ 64)] at h
        obtain ⟨hv, hlt⟩ := ih (total + gas + clauseFixedGas P c) v h
        have hgas := dataGas_ok_val P c.Data gas hdg
        constructor
        · rw [hv, hgas]
          simp only [List.map_cons, List.sum_cons]
          omega
        · intro _
          cases cs with
          | nil =>
            simp only [intrinsicLoop, Except.ok.injEq] at h
            omega
          | cons c2 cs2 => exact hlt (by simp)

theorem intrinsicLoop_ok_of_lt (P : ThorParams) (cs : List Clause) :
    ∀ total,
      total +
        (cs.map (fun c => exactDataGas P c.Data + clauseFixedGas P c)).sum
        < 2 ^ 64 →
      intrinsicLoop P cs total = .ok (total +
        (cs.map (fun c => exactDataGas P c.Data + clauseFixedGas P c)).sum)
    := by
  induction cs with
  | nil => intro total h; simp [intrinsicLoop]
  | cons c cs ih =>
    intro total h
    simp only [List.map_cons, List.sum_cons] at h ⊢
    have hdg : dataGas P c.Data = .ok (exactDataGas P c.Data) :=
      dataGas_ok_of_lt P c.Data (by omega)
    simp only [intrinsicLoop, hdg, safeAdd, decide_eq_true_eq]
    rw [if_neg (by omega), Nat.mod_eq_of_lt (by omega),
      if_neg (by omega), Nat.mod_eq_of_lt (by omega)]
    rw [ih (total + exactDataGas P c.Data + clauseFixedGas P c)
      (by omega)]
    congr 1
    omega

/-- C2: a transaction with zero clauses costs exactly
`TxGas + ClauseGas`; one creation clause with `n` zero bytes and `m`
non-zero bytes costs `TxGas + n*Z + m*NZ + ClauseGasContractCreation`
when that sum fits a `u64`; an `.ok` result is always the exact
(unwrapped) sum; and for a non-empty clause list whose exact sum
overflows, the result is the `OutOfGas` error, never a wrapped value. -/
theorem intrinsicGas_spec (P : ThorParams) (t : Transaction) :
    (t.body.Clauses = [] →
       t.IntrinsicGas P = .ok (P.txGas + P.clauseGas)) ∧
    (∀ v d, t.body.Clauses = [⟨none, v, d⟩] →
       P.txGas + (P.txDataZeroGas * d.count 0 +
           P.txDataNonZeroGas * (d.length - d.count 0)) +
           P.clauseGasContractCreation < 2 ^ 64 →
       t.IntrinsicGas P = .ok (P.txGas + (P.txDataZeroGas * d.count 0 +
           P.txDataNonZeroGas * (d.length - d.count 0)) +
           P.clauseGasContractCreation)) ∧
    (∀ v, t.IntrinsicGas P = .ok v → v = exactIntrinsicGas P t) ∧
    (t.body.Clauses ≠ [] → 2 ^ 64 ≤ exactIntrinsicGas P t →
       t.IntrinsicGas P = .error .outOfGas) := by
  refine ⟨fun h => ?_, fun v d h hlt => ?_, fun v h => ?_, fun hne hof => ?_⟩
  · simp [Transaction.IntrinsicGas, h]
  · have hlen : t.body.Clauses.length ≠ 0 := by simp [h]
    simp only [Transaction.IntrinsicGas, hlen, if_false, h]
    have := intrinsicLoop_ok_of_lt P [⟨none, v, d⟩] P.txGas
      (by simp [exactDataGas, clauseFixedGas]; omega)
    rw [this]
    simp [exactDataGas, clauseFixedGas]
    omega
  · by_cases hc : t.body.Clauses.length = 0
    · simp only [Transaction.IntrinsicGas, hc, if_true,
        Except.ok.injEq] at h
      rw [List.length_eq_zero] at hc
      simp [exactIntrinsicGas, hc, ← h]
    · simp only [Transaction.IntrinsicGas, hc, if_false] at h
      have := (intrinsicLoop_ok_val P t.body.Clauses P.txGas v h).1
      rw [List.length_eq_zero] at hc
      simp [exactIntrinsicGas, hc, this]
  · have hc : t.body.Clauses.length ≠ 0 := by
      simpa [List.length_eq_zero] using hne
    simp only [Transaction.IntrinsicGas, hc, if_false]
    cases hres : intrinsicLoop P t.body.Clauses P.txGas with
    | error e => cases e; rfl
    | ok v =>
      obtain ⟨hv, hlt⟩ := intrinsicLoop_ok_val P t.body.Clauses P.txGas
        v hres
      have := hlt hne
      rw [hv] at this
      simp only [exactIntrinsicGas, hc, if_false] at hof
      omega

/-- C2, witnessed: one creation clause with two zero bytes and one
non-zero byte costs `5000 + 2*4 + 1*68 + 48000 = 53076`. -/
theorem intrinsicGas_spec_witness :
    Transaction.IntrinsicGas params0
      ⟨⟨74, 7, 0, [⟨none, 5, [0, 1, 0]⟩], 128, 21000, none, [], []⟩⟩
      = .ok 53076 := by
  have h := (intrinsicGas_spec params0
    ⟨⟨74, 7, 0, [⟨none, 5, [0, 1, 0]⟩], 128, 21000, none, [], []⟩⟩).2.1
    5 [0, 1, 0] rfl (by decide)
  rw [h]
  rfl

/-! ## C6: codec round trip — big-endian integer lemmas -/

theorem beToNat_append_one (xs : List Nat) (b : Nat) :
    beToNat (xs ++ [b]) = beToNat xs * 256 + b := by
  simp [beToNat, List.foldl_append]

theorem beToNat_beBytes (n : Nat) : beToNat (beBytes n) = n := by
  induction n using Nat.strong_induction_on with
  | _ n ih =>
    rw [beBytes_eq]
    by_cases h0 : n = 0
    · simp [h0, beToNat]
    · have hdiv : n / 256 < n := Nat.div_lt_self (by omega) (by norm_num)
      rw [if_neg h0, beToNat_append_one, ih (n / 256) hdiv]
      omega

theorem beBytes_zero : beBytes 0 = [] := rfl

theorem beBytes_ne_nil (n : Nat) (h : n ≠ 0) : beBytes n ≠ [] := by
  rw [beBytes_eq, if_neg h]
  simp

theorem beBytes_head (n : Nat) (h : n ≠ 0) :
    ∃ hd tl, beBytes n = hd :: tl ∧ hd ≠ 0 := by
  induction n using Nat.strong_induction_on with
  | _ n ih =>
    rw [beBytes_eq, if_neg h]
    by_cases hsmall : n / 256 = 0
    · refine ⟨n % 256, [], ?_, ?_⟩
      · rw [hsmall, beBytes_zero]
        rfl
      · omega
    · have hdiv : n / 256 < n := Nat.div_lt_self (by omega) (by norm_num)
      obtain ⟨hd, tl, he, hne⟩ := ih (n / 256) hdiv hsmall
      exact ⟨hd, tl ++ [n % 256], by rw [he]; rfl, hne⟩

theorem beBytes_length_le : ∀ w n : Nat, n < 256 ^ w →
    (beBytes n).length ≤ w := by
  intro w
  induction w with
  | zero =>
    intro n h
    interval_cases n
    simp [beBytes_zero]
  | succ w ih =>
    intro n h
    by_cases h0 : n = 0
    · simp [h0, beBytes_zero]
    · rw [beBytes_eq, if_neg h0]
      have : n / 256 < 256 ^ w := by
        rw [Nat.div_lt_iff_lt_mul (by norm_num)]
        calc n < 256 ^ (w + 1) := h
        _ = 256 ^ w * 256 := by ring
      simpa using ih (n / 256) this

/-! ## C6: item-level decoding lemmas -/

theorem decodeUint_uintItem (w n : Nat) (h : n < 256 ^ w) :
    decodeUint w (uintItem n) = some n := by
  by_cases h0 : n = 0
  · subst h0
    rw [show uintItem 0 = .str [] from rfl]
    rfl
  · obtain ⟨hd, tl, he, hne⟩ := beBytes_head n h0
    have hlen : (hd :: tl).length ≤ w := he ▸ beBytes_length_le w n h
    rw [show uintItem n = .str (hd :: tl) by rw [uintItem, he]]
    rw [decodeUint]
    rw [if_neg (by simp at hlen ⊢; omega)]
    rw [← he, beToNat_beBytes]

theorem decodeUintBig_uintItem (n : Nat) :
    decodeUintBig (uintItem n) = some n := by
  by_cases h0 : n = 0
  · subst h0
    rfl
  · obtain ⟨hd, tl, he, hne⟩ := beBytes_head n h0
    rw [show uintItem n = .str (hd :: tl) by rw [uintItem, he]]
    rw [decodeUintBig, if_neg (by simpa using hne), ← he, beToNat_beBytes]

theorem decodeOptBytes_optBytesItem (w : Nat) (o : Option (List Nat))
    (hw : w ≠ 0)
    (h : ∀ a, o = some a → a.length = w) :
    decodeOptBytes w (optBytesItem o) = some o := by
  cases o with
  | none => rfl
  | some a =>
    have hl : a.length = w := h a rfl
    cases a with
    | nil => simp at hl; omega
    | cons x xs =>
      rw [optBytesItem, decodeOptBytes, if_pos hl]

theorem decodeClause_clauseToItem (c : Clause) (h : validClause c = true) :
    decodeClause (clauseToItem c) = some c := by
  rw [clauseToItem, decodeClause]
  rw [decodeOptBytes_optBytesItem 20 c.To (by omega) ?_]
  · rw [decodeUintBig_uintItem]
    rfl
  · intro a ha
    rw [validClause, ha] at h
    simpa using h

theorem decodeClauses_map (cs : List Clause)
    (h : cs.all validClause = true) :
    decodeClauses (.list (cs.map clauseToItem)) = some cs := by
  induction cs with
  | nil => rfl
  | cons c cs ih =>
    simp only [List.all_cons, Bool.and_eq_true] at h
    have h1 := decodeClause_clauseToItem c h.1
    have h2 := ih h.2
    simp only [decodeClauses, List.map_cons, List.mapM_cons, h1] at *
    rw [show (List.mapM decodeClause (cs.map clauseToItem))
        = some cs by simpa [decodeClauses] using h2]
    rfl

theorem decodeBodyItem_bodyToItem (b : TxBody) (hv : validBody b = true) :
    decodeBodyItem (bodyToItem b) = some b := by
  simp only [validBody, Bool.and_eq_true, decide_eq_true_eq,
    beq_iff_eq] at hv
  obtain ⟨⟨⟨⟨⟨⟨⟨h1, h2⟩, h3⟩, h4⟩, h5⟩, h6⟩, h7⟩, h8⟩ := hv
  rw [bodyToItem, decodeBodyItem]
  rw [decodeUint_uintItem 1 b.ChainTag (by simpa using h1),
    decodeUint_uintItem 8 b.Nonce (by simpa [show (256 : Nat) ^ 8 = 2 ^ 64 by norm_num] using h2),
    decodeUint_uintItem 8 b.BlockRef (by simpa [show (256 : Nat) ^ 8 = 2 ^ 64 by norm_num] using h3),
    decodeClauses_map b.Clauses h6,
    decodeUint_uintItem 1 b.GasPriceCoef (by simpa using h4),
    decodeUint_uintItem 8 b.Gas (by simpa [show (256 : Nat) ^ 8 = 2 ^ 64 by norm_num] using h5),
    decodeOptBytes_optBytesItem 32 b.DependsOn (by omega) ?_]
  · rfl
  · intro a ha
    rw [ha] at h7
    simpa using h7

/-! ## C6: RLP parser round trip -/

theorem encodeLength_lt (offset len : Nat) (h : len < 56) :
    encodeLength offset len = [offset + len] := by
  rw [encodeLength, if_pos h]

theorem encodeLength_ge (offset len : Nat) (h : ¬ len < 56) :
    encodeLength offset len
      = (offset + 55 + (beBytes len).length) :: beBytes len := by
  rw [encodeLength, if_neg h]

theorem rlpEncode_length_pos : ∀ it : RlpItem, 0 < (rlpEncode it).length
  | .str [] => by simp [rlpEncode, encodeLength]
  | .str [b] => by
    by_cases hb : b < 0x80 <;> simp [rlpEncode, hb, encodeLength]
  | .str (a :: b :: tl) => by
    rw [show rlpEncode (.str (a :: b :: tl))
        = encodeLength 0x80 (a :: b :: tl).length ++ (a :: b :: tl) from rfl]
    rw [encodeLength]
    split <;> simp
  | .list items => by
    rw [rlpEncode, encodeLength]
    split <;> simp

theorem rlpEncode_ne_nil (it : RlpItem) : rlpEncode it ≠ [] := by
  intro h
  have := rlpEncode_length_pos it
  rw [h] at this
  simp at this

mutual

theorem itemSize_le_enc : ∀ it : RlpItem,
    itemSize it ≤ 2 * (rlpEncode it).length
  | .str s => by
    have := rlpEncode_length_pos (.str s)
    simp only [itemSize]
    omega
  | .list items => by
    have h := listSize_le_enc items
    simp only [itemSize, rlpEncode]
    rw [encodeLength]
    split <;> simp <;> omega

theorem listSize_le_enc : ∀ its : List RlpItem,
    listSize its ≤ 2 * (encList its).length + 1
  | [] => by simp [listSize, encList]
  | it :: its => by
    have h1 := itemSize_le_enc it
    have h2 := listSize_le_enc its
    have h3 := rlpEncode_length_pos it
    simp only [listSize, encList, List.length_append]
    omega

end

theorem itemSize_pos (it : RlpItem) : 1 ≤ itemSize it := by
  cases it <;> simp [itemSize]

theorem listSize_pos (its : List RlpItem) : 1 ≤ listSize its := by
  cases its <;> simp [listSize]

theorem parseItem_single (f b : Nat) (rest : List Nat) (hb : b < 128) :
    parseItem (f + 1) (b :: rest) = some (.str [b], rest) := by
  simp only [parseItem]
  rw [if_pos hb]

theorem parseItem_short_str (f : Nat) (s rest : List Nat)
    (hlen : s.length < 56)
    (hnot1 : s.length = 1 → hasLoByte s = false) :
    parseItem (f + 1) ((128 + s.length) :: (s ++ rest))
      = some (.str s, rest) := by
  simp only [parseItem]
  rw [if_neg (by omega), if_pos (by omega : 128 + s.length < 184)]
  rw [if_neg (by
    simp only [List.length_append, Nat.add_sub_cancel_left]
    omega)]
  have hcond : (decide (128 + s.length - 128 = 1)
      && hasLoByte (s ++ rest)) = false := by
    by_cases hl1 : s.length = 1
    · obtain ⟨x, hx⟩ : ∃ x, s = [x] := by
        cases s with
        | nil => simp at hl1
        | cons y ys =>
          cases ys with
          | nil => exact ⟨y, rfl⟩
          | cons z zs => simp at hl1
      have := hnot1 hl1
      rw [hx] at this ⊢
      simp only [List.cons_append, hasLoByte] at this ⊢
      simp [this]
    · simp [hl1]
  rw [if_neg (by rw [hcond]; simp)]
  rw [Nat.add_sub_cancel_left, List.take_left, List.drop_left]

theorem parseItem_long_str (f : Nat) (s rest : List Nat)
    (hlen : ¬ s.length < 56) (hbound : s.length < 2 ^ 64) :
    parseItem (f + 1) ((183 + (beBytes s.length).length)
        :: (beBytes s.length ++ (s ++ rest)))
      = some (.str s, rest) := by
  obtain ⟨hd, tl, he, hne⟩ := beBytes_head s.length (by omega)
  have hll : (beBytes s.length).length ≤ 8 := by
    apply beBytes_length_le
    calc s.length < 2 ^ 64 := hbound
    _ = 256 ^ 8 := by norm_num
  have hll1 : 1 ≤ (beBytes s.length).length := by
    rw [he]; simp
  simp only [parseItem]
  rw [if_neg (by omega), if_neg (by omega), if_pos (by omega :
    183 + (beBytes s.length).length < 192)]
  rw [if_neg (by
    simp only [List.length_append, Nat.add_sub_cancel_left]
    omega)]
  rw [if_neg (by
    rw [he, List.cons_append]
    simp [leadZero, hne])]
  rw [Nat.add_sub_cancel_left, List.take_left, beToNat_beBytes,
    List.drop_left]
  rw [if_neg (by omega), if_neg (by simp)]
  rw [List.take_left, List.drop_left]

theorem parseItem_short_list (f : Nat) (payload rest : List Nat)
    (items : List RlpItem) (hlen : payload.length < 56)
    (hplist : parseList f payload = some items) :
    parseItem (f + 1) ((192 + payload.length) :: (payload ++ rest))
      = some (.list items, rest) := by
  simp only [parseItem]
  rw [if_neg (by omega), if_neg (by omega), if_neg (by omega),
    if_pos (by omega : 192 + payload.length < 248)]
  rw [if_neg (by
    simp only [List.length_append, Nat.add_sub_cancel_left]
    omega)]
  rw [Nat.add_sub_cancel_left, List.take_left, hplist, List.drop_left]

theorem parseItem_long_list (f : Nat) (payload rest : List Nat)
    (items : List RlpItem) (hlen : ¬ payload.length < 56)
    (hbound : payload.length < 2 ^ 64)
    (hplist : parseList f payload = some items) :
    parseItem (f + 1) ((247 + (beBytes payload.length).length)
        :: (beBytes payload.length ++ (payload ++ rest)))
      = some (.list items, rest) := by
  obtain ⟨hd, tl, he, hne⟩ := beBytes_head payload.length (by omega)
  have hll : (beBytes payload.length).length ≤ 8 := by
    apply beBytes_length_le
    calc payload.length < 2 ^ 64 := hbound
    _ = 256 ^ 8 := by norm_num
  have hll1 : 1 ≤ (beBytes payload.length).length := by
    rw [he]; simp
  simp only [parseItem]
  rw [if_neg (by omega), if_neg (by omega), if_neg (by omega),
    if_neg (by omega)]
  rw [if_neg (by
    simp only [List.length_append, Nat.add_sub_cancel_left]
    omega)]
  rw [if_neg (by
    rw [he, List.cons_append]
    simp [leadZero, hne])]
  rw [Nat.add_sub_cancel_left, List.take_left, beToNat_beBytes,
    List.drop_left]
  rw [if_neg (by omega), if_neg (by simp)]
  rw [List.take_left, hplist, List.drop_left]

/-- The parser inverts the encoder: with enough fuel, parsing an encoded
item consumes exactly its encoding, and parsing an encoded sequence
consumes it whole. -/
theorem parse_enc (f : Nat) :
    (∀ it rest, wfItem it = true → itemSize it ≤ f →
       parseItem f (rlpEncode it ++ rest) = some (it, rest)) ∧
    (∀ its, wfList its = true → listSize its ≤ f →
       parseList f (encList its) = some its) := by
  induction f using Nat.strong_induction_on with
  | _ f ih =>
    constructor
    · intro it rest hwf hsz
      obtain ⟨f', rfl⟩ : ∃ f', f = f' + 1 :=
        ⟨f - 1, by have := itemSize_pos it; omega⟩
      cases it with
      | str s =>
        rcases s with _ | ⟨a, _ | ⟨b2, tl⟩⟩
        · have h := parseItem_short_str f' [] rest (by norm_num)
            (by intro h; simp at h)
          simpa using h
        · by_cases ha : a < 128
          · rw [show rlpEncode (.str [a]) = [a] by simp [rlpEncode, ha]]
            exact parseItem_single f' a rest ha
          · rw [show rlpEncode (.str [a]) = [129, a] by
              simp [rlpEncode, ha, encodeLength]]
            have h := parseItem_short_str f' [a] rest (by norm_num)
              (fun _ => by simp [hasLoByte, ha])
            simpa using h
        · by_cases hlen : (a :: b2 :: tl).length < 56
          · rw [show rlpEncode (.str (a :: b2 :: tl))
                = (128 + (a :: b2 :: tl).length) :: (a :: b2 :: tl) by
              rw [show rlpEncode (.str (a :: b2 :: tl))
                  = encodeLength 0x80 (a :: b2 :: tl).length
                    ++ (a :: b2 :: tl) from rfl,
                encodeLength_lt _ _ hlen]
              rfl]
            rw [List.cons_append]
            exact parseItem_short_str f' (a :: b2 :: tl) rest hlen
              (by intro h; simp at h)
          · have hbound : (a :: b2 :: tl).length < 2 ^ 64 := by
              simp only [wfItem, Bool.and_eq_true, decide_eq_true_eq]
                at hwf
              exact hwf.2
            rw [show rlpEncode (.str (a :: b2 :: tl))
                = (183 + (beBytes (a :: b2 :: tl).length).length)
                  :: (beBytes (a :: b2 :: tl).length ++ (a :: b2 :: tl))
                by
              rw [show rlpEncode (.str (a :: b2 :: tl))
                  = encodeLength 0x80 (a :: b2 :: tl).length
                    ++ (a :: b2 :: tl) from rfl,
                encodeLength_ge _ _ hlen]
              rfl]
            rw [List.cons_append, List.append_assoc]
            exact parseItem_long_str f' (a :: b2 :: tl) rest hlen hbound
      | list items =>
        have hwfl : wfList items = true ∧ (encList items).length < 2 ^ 64
          := by
          simpa only [wfItem, Bool.and_eq_true, decide_eq_true_eq]
            using hwf
        have hszl : listSize items ≤ f' := by
          simp only [itemSize] at hsz
          omega
        have hplist := (ih f' (by omega)).2 items hwfl.1 hszl
        by_cases hlen : (encList items).length < 56
        · rw [show rlpEncode (.list items)
              = (192 + (encList items).length) :: encList items by
            rw [rlpEncode, encodeLength_lt _ _ hlen]
            rfl]
          rw [List.cons_append]
          exact parseItem_short_list f' (encList items) rest items hlen
            hplist
        · rw [show rlpEncode (.list items)
              = (247 + (beBytes (encList items).length).length)
                :: (beBytes (encList items).length ++ encList items) by
            rw [rlpEncode, encodeLength_ge _ _ hlen]
            rfl]
          rw [List.cons_append, List.append_assoc]
          exact parseItem_long_list f' (encList items) rest items hlen
            hwfl.2 hplist
    · intro its hwf hsz
      obtain ⟨f', rfl⟩ : ∃ f', f = f' + 1 :=
        ⟨f - 1, by have := listSize_pos its; omega⟩
      cases its with
      | nil => rfl
      | cons it its =>
        have hwf2 : wfItem it = true ∧ wfList its = true := by
          simpa only [wfList, Bool.and_eq_true] using hwf
        have hsz2 : itemSize it ≤ f' ∧ listSize its ≤ f' := by
          simp only [listSize] at hsz
          constructor
          · have := Nat.le_max_left (itemSize it) (listSize its)
            omega
          · have := Nat.le_max_right (itemSize it) (listSize its)
            omega
        have hitem := (ih f' (by omega)).1 it (encList its) hwf2.1 hsz2.1
        have hlist := (ih f' (by omega)).2 its hwf2.2 hsz2.2
        obtain ⟨b, tl, hbs⟩ :=
          List.exists_cons_of_ne_nil (rlpEncode_ne_nil it)
        rw [show encList (it :: its) = rlpEncode it ++ encList its
          from rfl]
        rw [hbs, List.cons_append]
        simp only [parseList]
        rw [← List.cons_append, ← hbs, hitem]
        simp only [hlist]

/-- Byte-level round trip for one well-formed RLP item. -/
theorem rlpDecode_rlpEncode (it : RlpItem) (hwf : wfItem it = true) :
    rlpDecode (rlpEncode it) = some it := by
  have h := (parse_enc (2 * (rlpEncode it).length + 2)).1 it [] hwf
    (by have := itemSize_le_enc it; omega)
  rw [List.append_nil] at h
  unfold rlpDecode
  rw [h]

/-- C6: decoding the canonical encoding of a valid transaction body gives
back an equal body — the reserved item sequence and a `none` dependsOn
included, since the whole body record round-trips. -/
theorem tx_roundTrip (b : TxBody) (hv : validBody b = true) :
    decodeTx (encodeTx b) = some b := by
  have hwf : wfItem (bodyToItem b) = true := by
    simp only [validBody, Bool.and_eq_true] at hv
    exact hv.2
  rw [decodeTx, encodeTx, rlpDecode_rlpEncode _ hwf]
  exact decodeBodyItem_bodyToItem b hv

/-- C6, witnessed on a body with two clauses, a non-empty reserved
sequence and a `none` dependsOn. -/
theorem tx_roundTrip_witness :
    validBody (Transaction.body tx0) = true ∧
    decodeTx (encodeTx (Transaction.body tx0))
      = some (Transaction.body tx0) :=
  ⟨rfl, tx_roundTrip (Transaction.body tx0) rfl⟩

end Thor
